import Mathlib

/-!
Verification of `qiskit_machine_learning/datasets/ad_hoc.py` (the ad-hoc
dataset generator) and of the save/load behaviour exercised by
`test/algorithms/regressors/test_qsvr.py`.

The numerical code is embedded shallowly: a numpy array becomes an `NPMat`
(runtime sizes plus a total entry function that is zero outside the array),
`np.kron` becomes `kron` with numpy's block layout by integer division and
remainder, and randomness (shuffles, uniform draws, Sobol points, index
draws) becomes explicit oracle arguments constrained by the documented
contracts of the random sources.
-/

/-- A numpy-style real matrix: row and column counts together with a total
entry function that vanishes outside the array (the padding invariant), so
that `np.kron`'s divide-and-remainder block indexing is total. -/
structure NPMat where
  rows : ℕ
  cols : ℕ
  entry : ℕ → ℕ → ℝ
  pad : ∀ i j, rows ≤ i ∨ cols ≤ j → entry i j = 0

/-- The 1×1 matrix holding `1`: how numpy treats the python scalar `1`
that `_n_hadamard` starts its accumulator `result` with. -/
def npOne : NPMat where
  rows := 1
  cols := 1
  entry i j := if i = 0 ∧ j = 0 then 1 else 0
  pad := by
    intro i j h
    have : ¬(i = 0 ∧ j = 0) := by omega
    simp [this]

/-- `np.kron(A, B)`: block layout by integer division and remainder, as numpy
lays out the Kronecker product. -/
def kron (A B : NPMat) : NPMat where
  rows := A.rows * B.rows
  cols := A.cols * B.cols
  entry i j := A.entry (i / B.rows) (j / B.cols) * B.entry (i % B.rows) (j % B.cols)
  pad := by
    intro i j h
    show A.entry (i / B.rows) (j / B.cols) * B.entry (i % B.rows) (j % B.cols) = 0
    rcases h with h | h
    · rcases Nat.eq_zero_or_pos B.rows with h0 | hpos
      · rw [B.pad (i % B.rows) (j % B.cols) (Or.inl (by omega))]
        ring
      · rw [A.pad (i / B.rows) (j / B.cols)
          (Or.inl ((Nat.le_div_iff_mul_le hpos).mpr h))]
        ring
    · rcases Nat.eq_zero_or_pos B.cols with h0 | hpos
      · rw [B.pad (i % B.rows) (j % B.cols) (Or.inr (by omega))]
        ring
      · rw [A.pad (i / B.rows) (j / B.cols)
          (Or.inr ((Nat.le_div_iff_mul_le hpos).mpr h))]
        ring

/-- Iterated Kronecker power: `kronPow A n = A ⊗ ⋯ ⊗ A` (`n` factors), the
naive n-fold product the spec describes. -/
def kronPow (A : NPMat) : ℕ → NPMat
  | 0 => npOne
  | k + 1 => kron (kronPow A k) A

/-- The while loop of `_n_hadamard`: binary exponentiation over Kronecker
squaring (`result` and `base` are the loop's variables, `expo` the counter). -/
def hadLoop (result base : NPMat) (expo : ℕ) : NPMat :=
  if h : expo = 0 then result
  else
    hadLoop (if expo % 2 = 1 then kron result base else result) (kron base base) (expo / 2)
termination_by expo
decreasing_by exact Nat.div_lt_self (Nat.pos_of_ne_zero h) one_lt_two

/-- The 2×2 Hadamard matrix `np.array([[1, 1], [1, -1]]) / np.sqrt(2)`. -/
noncomputable def hadBase : NPMat where
  rows := 2
  cols := 2
  entry i j := if i < 2 ∧ j < 2 then (if i = 1 ∧ j = 1 then -1 else 1) / Real.sqrt 2 else 0
  pad := by
    intro i j h
    have : ¬(i < 2 ∧ j < 2) := by omega
    simp [this]

/-- `_n_hadamard(n)`: `result = 1`, then the binary-exponentiation loop on the
2×2 Hadamard base. -/
noncomputable def _n_hadamard (n : ℕ) : NPMat :=
  hadLoop npOne hadBase n

/-- The specification's naive n-fold Kronecker product `H ⊗ ⋯ ⊗ H` (for
`n = 0` the scalar `1`), to be compared with `_n_hadamard`. -/
noncomputable def naiveHadamard (n : ℕ) : NPMat :=
  kronPow hadBase n

/-- Number of 1-bits in the binary expansion of a natural number. -/
def popcount : ℕ → ℕ
  | 0 => 0
  | n + 1 => (n + 1) % 2 + popcount ((n + 1) / 2)
decreasing_by simp_wf
              omega

/-- `np.sign` on a real number. -/
noncomputable def npSign (x : ℝ) : ℝ :=
  if 0 < x then 1 else if x < 0 then -1 else 0

/-- `np.eye(m)`. -/
def npEye (m : ℕ) : NPMat where
  rows := m
  cols := m
  entry i j := if i = j ∧ i < m then 1 else 0
  pad := by
    intro i j h
    have : ¬(i = j ∧ i < m) := by omega
    simp [this]

/-- The Pauli-Z matrix `np.diag([1, -1])`. -/
def zBase : NPMat where
  rows := 2
  cols := 2
  entry i j := if i = j ∧ i < 2 then (if i = 1 then -1 else 1) else 0
  pad := by
    intro i j h
    have : ¬(i = j ∧ i < 2) := by omega
    simp [this]

/-- `_i_z(i, n)`: `kron(kron(np.eye(2**i), z), np.eye(2**(n-i-1)))` with
`z = np.diag([1, -1])`. -/
def _i_z (i n : ℕ) : NPMat :=
  kron (kron (npEye (2 ^ i)) zBase) (npEye (2 ^ (n - i - 1)))

/-- `_n_z(h_n)`: `np.diag(np.sign(np.diag(h_n)))` — the diagonal of the
argument, its elementwise sign, re-embedded as a diagonal matrix. -/
noncomputable def _n_z (h : NPMat) : NPMat where
  rows := min h.rows h.cols
  cols := min h.rows h.cols
  entry i j := if i = j ∧ i < min h.rows h.cols then npSign (h.entry i i) else 0
  pad := by
    intro i j hij
    have hno : ¬(i = j ∧ i < min h.rows h.cols) := by omega
    show (if i = j ∧ i < min h.rows h.cols then npSign (h.entry i i) else 0) = 0
    rw [if_neg hno]

/-- The spec-side n-fold Kronecker product `Z ⊗ ⋯ ⊗ Z` of `np.diag([1, -1])`,
to be compared with `_n_z(_n_hadamard(n))`. -/
def naiveZ (n : ℕ) : NPMat :=
  kronPow zBase n

/-- `np.tile(np.arange(n_div), n_passes)` from `_modified_LHC`. -/
def tileBins (n_div n_passes : ℕ) : List ℕ :=
  (List.replicate n_passes (List.range n_div)).join

/-- `n_passes = (n_samples + n_div - 1) // n_div` from `_modified_LHC`. -/
def nPasses (n_samples n_div : ℕ) : ℕ :=
  (n_samples + n_div - 1) / n_div

/-- `chosen_bins = all_bins[:n_samples]` from `_modified_LHC`. -/
def chosenBins (shuffled : List ℕ) (n_samples : ℕ) : List ℕ :=
  shuffled.take n_samples

/-- The contract of `algorithm_globals.random.shuffle(all_bins)` inside
`_modified_LHC`: the shuffled list is a permutation of
`np.tile(np.arange(n_div), n_passes)`. -/
def isShuffleOf (shuffled : List ℕ) (n_samples n_div : ℕ) : Prop :=
  shuffled.Perm (tileBins n_div (nPasses n_samples n_div))

/-- `_modified_LHC(n, n_samples, n_div)` at sample `s`, dimension `dim`:
`samples[:, dim] = (chosen_bins + offsets) * bin_size` with
`bin_size = 2*np.pi/n_div`. The per-dimension shuffle outcomes and the
uniform offsets drawn by `algorithm_globals.random.random` are explicit
oracle arguments. -/
noncomputable def _modified_LHC (n n_samples n_div : ℕ) (shuffles : ℕ → List ℕ)
    (offsets : ℕ → ℕ → ℝ) (s dim : ℕ) : ℝ :=
  ((chosenBins (shuffles dim) n_samples).getD s 0 + offsets dim s)
    * (2 * Real.pi / n_div)

/-- `_sobol_sampling(n, n_samples)`: `2*np.pi*sampler.random(n_samples)`, the
scrambled Sobol points being an explicit oracle `u` (scipy's `Sobol.random`
yields points of the unit cube `[0, 1)`). -/
noncomputable def _sobol_sampling (n n_samples : ℕ) (u : ℕ → ℕ → ℝ) (s dim : ℕ) : ℝ :=
  2 * Real.pi * u s dim

/-- Lines 136-139 of `ad_hoc_data`: `if divisions>0:` use `_modified_LHC`,
`else:` use `_sobol_sampling`. -/
noncomputable def adHocSampling (divisions n n_samples : ℕ) (shuffles : ℕ → List ℕ)
    (offsets u : ℕ → ℕ → ℝ) : ℕ → ℕ → ℝ :=
  if 0 < divisions then _modified_LHC n n_samples divisions shuffles offsets
  else _sobol_sampling n n_samples u

/-- The claim's reading of 1-D stratified sampling: within every consecutive
pass of `n_div` draws, no bin repeats (each bin is used before any bin
repeats within that pass). -/
def eachBinOncePerPass (n_div : ℕ) (bins : List ℕ) : Prop :=
  ∀ p : ℕ, ((bins.drop (p * n_div)).take n_div).Nodup

/-- The `while len(sample_list) < num_samples` loop of `_sample_ad_hoc_data`
for one label. `cell` looks `sample_total` up at an index tuple, `stream t`
is the tuple of `n` draws of `algorithm_globals.random.choice(count)` made at
loop iteration `t`, and `xvals` maps a drawn index to its grid coordinate.
`fuel` bounds the loop iterations; the result is the collected feature rows
(`[xvals[d] for d in draws]` for each accepted draw) and the next stream
position, or `none` when the loop is still running after `fuel` iterations. -/
def collectFrom (cell : List ℕ → Int) (label : Int) (stream : ℕ → List ℕ)
    (xvals : ℕ → ℝ) : ℕ → ℕ → ℕ → Option (List (List ℝ) × ℕ)
  | _, 0, start => some ([], start)
  | 0, _ + 1, _ => none
  | fuel + 1, need + 1, start =>
    if cell (stream start) = label then
      match collectFrom cell label stream xvals fuel need (start + 1) with
      | some (rows, p) => some ((stream start).map xvals :: rows, p)
      | none => none
    else collectFrom cell label stream xvals fuel (need + 1) (start + 1)

/-- `_sample_ad_hoc_data(sample_total, xvals, num_samples, n)`: fill
`sample_a` with rows whose grid cell is labelled `+1`, then `sample_b` with
rows labelled `-1` (the draw stream continuing where the first loop
stopped), and return the stacked rows together with the label array
`[0]*num_samples + [1]*num_samples`. `fuel` bounds the iterations of each
while loop; `none` means a loop is still running after `fuel` iterations. -/
def _sample_ad_hoc_data (cell : List ℕ → Int) (stream : ℕ → List ℕ)
    (xvals : ℕ → ℝ) (num_samples fuel : ℕ) : Option (List (List ℝ) × List ℕ) :=
  match collectFrom cell 1 stream xvals fuel num_samples 0 with
  | none => none
  | some (a, p) =>
    match collectFrom cell (-1) stream xvals fuel num_samples p with
    | none => none
    | some (b, _) =>
      some (a ++ b, List.replicate num_samples 0 ++ List.replicate num_samples 1)

/-- Witness grid-cell oracle: index tuples headed by an even coordinate are
labelled `+1`, the others `-1`. -/
def wCell : List ℕ → Int :=
  fun l => if l.headD 0 = 0 then 1 else -1

/-- Witness draw stream alternating between the two cells. -/
def wStream : ℕ → List ℕ :=
  fun t => [t % 2]

/-- Witness grid coordinates. -/
def wX : ℕ → ℝ :=
  fun _ => 0

/-- `_phi_i(x_vecs, i)` at sample `s`: `x_vecs[s, i]`. -/
def _phi_i (x : ℕ → ℕ → ℝ) (i s : ℕ) : ℝ :=
  x s i

/-- `_phi_ij(x_vecs, i, j)` at sample `s`:
`(np.pi - x_vecs[s, i]) * (np.pi - x_vecs[s, j])`. -/
noncomputable def _phi_ij (x : ℕ → ℕ → ℝ) (i j s : ℕ) : ℝ :=
  (Real.pi - x s i) * (Real.pi - x s j)

/-- The index pairs `combinations(range(n), 2)` over which `ad_hoc_data`
accumulates the second-order terms. -/
def indPairs (n : ℕ) : Finset (ℕ × ℕ) :=
  (Finset.range n ×ˢ Finset.range n).filter fun p => p.1 < p.2

/-- `pre_exp[s, c]` from `ad_hoc_data`: the first-order terms
`_phi_i(x_vecs, i) * z_diags[i]` plus the second-order terms
`_phi_ij(x_vecs, i, j) * zz_diags[(i, j)]`, where `z_diags[i]` is the
diagonal of `_i_z(i, n)` and `zz_diags[(i, j)]` its pairwise product — a
real-valued array. -/
noncomputable def preExp (n : ℕ) (x : ℕ → ℕ → ℝ) (s c : ℕ) : ℝ :=
  (∑ i in Finset.range n, _phi_i x i s * (_i_z i n).entry c c)
    + ∑ p in indPairs n, _phi_ij x p.1 p.2 s
        * ((_i_z p.1 n).entry c c * (_i_z p.2 n).entry c c)

/-- `post_exp = np.exp(1j * pre_exp)` entrywise. -/
noncomputable def postExp (n : ℕ) (x : ℕ → ℕ → ℝ) (s c : ℕ) : ℂ :=
  Complex.exp (Complex.I * (preExp n x s c : ℂ))

/-- Line 154 of `ad_hoc_data`: `Uphi = np.zeros((10, dims, dims), ...)` — the
leading (batch) dimension is hard-coded to `10`, not `n_samples`. -/
def uphiBatchSize : ℕ :=
  10

/-- Numpy's broadcast rule for assigning a right-hand side with leading
dimension `rhs` into a slice with leading dimension `lhs` (as in
`Uphi[:, cols, cols] = post_exp[:, cols]`): well-formed iff the two agree or
the right-hand side's is 1. -/
def numpyAssignCompatible (lhs rhs : ℕ) : Bool :=
  rhs == lhs || rhs == 1

/-- The names `ad_hoc.py` defines at module level (its `def` statements). -/
def moduleTopLevelDefs : List String :=
  ["ad_hoc_data", "_sample_ad_hoc_data", "_plot_ad_hoc_data",
   "_features_and_labels_transform", "_n_hadamard", "_i_z", "_n_z",
   "_modified_LHC", "_sobol_sampling", "_phi_i", "_phi_ij"]

/-- The names `ad_hoc.py` binds at module level by its import statements. -/
def moduleImportedNames : List String :=
  ["annotations", "reduce", "it", "Tuple", "Dict", "List", "np",
   "preprocessing", "optionals", "algorithm_globals", "Sobol"]

/-- The free (global) names the body of `ad_hoc_data` references: names that
are neither parameters of `ad_hoc_data` nor assigned in its body before use,
which python must therefore resolve at module scope at call time. -/
def adHocDataFreeNames : List String :=
  ["np", "n_hadamard", "_i_z", "combinations", "_n_z", "algorithm_globals",
   "_modified_LHC", "_sobol_sampling", "_phi_i", "_phi_ij", "_sample_total",
   "count", "xvals", "_sample_ad_hoc_data", "training_size",
   "_plot_ad_hoc_data", "_features_and_labels_transform"]

/-- The exceptions the docstring of `ad_hoc_data` documents under `Raises:`. -/
def adHocDataDocumentedRaises : List String :=
  ["ValueError"]

/-- The raise statements contained in `ad_hoc.py` (there are none). -/
def adHocModuleRaiseStatements : List String :=
  []

/-- Modelled from the spec: the fitted state of a `QSVR` regression model.
The quantum kernel and the SVR optimisation are external black boxes (the
`QSVR` class itself is not part of this repository fragment), so the fitted
model is abstracted by its deterministic prediction function on feature
rows: "the test exercises fit/predict/save/load round-trips of a regression
estimator around a quantum kernel". -/
structure QSVRModel where
  predictFn : List ℝ → ℝ

/-- Modelled from the spec: the `SerializableModelMixin` subclasses the test
`test_save_load` exercises — `QSVR` itself and the `FakeModel` declared in
the test body. -/
inductive ModelClass where
  | qsvr
  | fakeModel
deriving DecidableEq

/-- Modelled from the spec: a saved model file records the dumping class
together with the fitted state. -/
structure SavedModelFile where
  klass : ModelClass
  state : QSVRModel

/-- Modelled from the spec: `model.save(file_name)` of a fitted `QSVR`. -/
def saveModel (m : QSVRModel) : SavedModelFile :=
  ⟨ModelClass.qsvr, m⟩

/-- Modelled from the spec: `cls.load(file_name)` of a
`SerializableModelMixin` subclass — the stored model when the file was dumped
by the same class, a `TypeError` otherwise. -/
def loadModel (k : ModelClass) (f : SavedModelFile) : Except String QSVRModel :=
  if f.klass = k then Except.ok f.state else Except.error "TypeError"

/-- Modelled from the spec: `model.predict(X)` of the fitted regressor. -/
def predictModel (m : QSVRModel) (xrow : List ℝ) : ℝ :=
  m.predictFn xrow

theorem NPMat.ext_mat {A B : NPMat} (hr : A.rows = B.rows) (hc : A.cols = B.cols)
    (he : ∀ i j, A.entry i j = B.entry i j) : A = B := by
  obtain ⟨ar, ac, ae, ap⟩ := A
  obtain ⟨br, bc, be, bp⟩ := B
  dsimp only at hr hc he
  subst hr
  subst hc
  have hee : ae = be := funext fun i => funext fun j => he i j
  subst hee
  rfl

theorem kron_entry (A B : NPMat) (i j : ℕ) :
    (kron A B).entry i j
      = A.entry (i / B.rows) (j / B.cols) * B.entry (i % B.rows) (j % B.cols) := rfl

theorem npOne_kron (A : NPMat) : kron npOne A = A := by
  refine NPMat.ext_mat (one_mul _) (one_mul _) ?_
  intro i j
  rw [kron_entry]
  rcases Nat.eq_zero_or_pos A.rows with hr0 | hrpos
  · rw [A.pad (i % A.rows) (j % A.cols) (Or.inl (by omega)),
      A.pad i j (Or.inl (by omega))]
    ring
  rcases Nat.eq_zero_or_pos A.cols with hc0 | hcpos
  · rw [A.pad (i % A.rows) (j % A.cols) (Or.inr (by omega)),
      A.pad i j (Or.inr (by omega))]
    ring
  by_cases hi : i < A.rows
  · by_cases hj : j < A.cols
    · rw [Nat.div_eq_of_lt hi, Nat.div_eq_of_lt hj, Nat.mod_eq_of_lt hi, Nat.mod_eq_of_lt hj]
      show npOne.entry 0 0 * A.entry i j = A.entry i j
      simp [npOne]
    · have h1 : 1 ≤ j / A.cols := (Nat.one_le_div_iff hcpos).mpr (by omega)
      have : npOne.entry (i / A.rows) (j / A.cols) = 0 :=
        npOne.pad _ _ (Or.inr h1)
      rw [this, A.pad i j (Or.inr (by omega))]
      ring
  · have h1 : 1 ≤ i / A.rows := (Nat.one_le_div_iff hrpos).mpr (by omega)
    have : npOne.entry (i / A.rows) (j / A.cols) = 0 :=
      npOne.pad _ _ (Or.inl h1)
    rw [this, A.pad i j (Or.inl (by omega))]
    ring

theorem kron_npOne (A : NPMat) : kron A npOne = A := by
  refine NPMat.ext_mat (mul_one _) (mul_one _) ?_
  intro i j
  rw [kron_entry]
  show A.entry (i / 1) (j / 1) * npOne.entry (i % 1) (j % 1) = A.entry i j
  simp [npOne, Nat.div_one, Nat.mod_one]

theorem kron_rows (A B : NPMat) : (kron A B).rows = A.rows * B.rows := rfl

theorem kron_cols (A B : NPMat) : (kron A B).cols = A.cols * B.cols := rfl

theorem kron_assoc (A B C : NPMat) : kron (kron A B) C = kron A (kron B C) := by
  refine NPMat.ext_mat (mul_assoc _ _ _) (mul_assoc _ _ _) ?_
  intro i j
  rw [kron_entry, kron_entry, kron_entry, kron_entry]
  simp only [kron_rows, kron_cols]
  have hdr : i / C.rows / B.rows = i / (B.rows * C.rows) := by
    rw [Nat.div_div_eq_div_mul, Nat.mul_comm]
  have hdc : j / C.cols / B.cols = j / (B.cols * C.cols) := by
    rw [Nat.div_div_eq_div_mul, Nat.mul_comm]
  have hmr : i % (B.rows * C.rows) / C.rows = i / C.rows % B.rows := by
    rw [Nat.mul_comm, Nat.mod_mul_right_div_self]
  have hmc : j % (B.cols * C.cols) / C.cols = j / C.cols % B.cols := by
    rw [Nat.mul_comm, Nat.mod_mul_right_div_self]
  have hrr : i % (B.rows * C.rows) % C.rows = i % C.rows :=
    Nat.mod_mod_of_dvd i (dvd_mul_left _ _)
  have hrc : j % (B.cols * C.cols) % C.cols = j % C.cols :=
    Nat.mod_mod_of_dvd j (dvd_mul_left _ _)
  rw [hdr, hdc, hmr, hmc, hrr, hrc]
  ring

theorem kron_kronPow_comm (A : NPMat) (k : ℕ) :
    kron A (kronPow A k) = kron (kronPow A k) A := by
  induction k with
  | zero => rw [kronPow, kron_npOne, npOne_kron]
  | succ k ih =>
    rw [kronPow, ← kron_assoc, ih]

theorem kronPow_sq (A : NPMat) (k : ℕ) :
    kronPow (kron A A) k = kronPow A (2 * k) := by
  induction k with
  | zero => rfl
  | succ k ih =>
    have h2 : 2 * (k + 1) = 2 * k + 1 + 1 := by ring
    rw [kronPow, ih, h2, kronPow, kronPow, kron_assoc]

theorem hadLoop_eq (e : ℕ) : ∀ r b : NPMat, hadLoop r b e = kron r (kronPow b e) := by
  induction e using Nat.strong_induction_on with
  | _ e ih =>
    intro r b
    rw [hadLoop]
    by_cases h : e = 0
    · subst h
      simp only [dif_pos]
      rw [kronPow, kron_npOne]
    · rw [dif_neg h]
      rw [ih (e / 2) (Nat.div_lt_self (Nat.pos_of_ne_zero h) one_lt_two)]
      rw [kronPow_sq]
      by_cases h1 : e % 2 = 1
      · rw [if_pos h1]
        have he : e = 2 * (e / 2) + 1 := by omega
        rw [kron_assoc, kron_kronPow_comm b (2 * (e / 2))]
        show kron r (kronPow b (2 * (e / 2) + 1)) = kron r (kronPow b e)
        rw [← he]
      · rw [if_neg h1]
        have he : 2 * (e / 2) = e := by omega
        rw [he]

theorem kronPow_rows (A : NPMat) (k : ℕ) : (kronPow A k).rows = A.rows ^ k := by
  induction k with
  | zero => rfl
  | succ k ih =>
    show (kronPow A k).rows * A.rows = A.rows ^ (k + 1)
    rw [ih, pow_succ]

theorem kronPow_cols (A : NPMat) (k : ℕ) : (kronPow A k).cols = A.cols ^ k := by
  induction k with
  | zero => rfl
  | succ k ih =>
    show (kronPow A k).cols * A.cols = A.cols ^ (k + 1)
    rw [ih, pow_succ]

/-- C7: for every n ≥ 0, `_n_hadamard(n)`, computed by binary exponentiation
over Kronecker squaring, equals the naive n-fold Kronecker product
`H ⊗ ⋯ ⊗ H` of the 2×2 Hadamard matrix `[[1,1],[1,-1]]/sqrt(2)` (for `n = 0`
the scalar `1`), a `2^n` by `2^n` matrix. -/
theorem n_hadamard_correct (n : ℕ) :
    _n_hadamard n = naiveHadamard n
      ∧ (naiveHadamard n).rows = 2 ^ n
      ∧ (naiveHadamard n).cols = 2 ^ n
      ∧ naiveHadamard 0 = npOne := by
  refine ⟨?_, ?_, ?_, rfl⟩
  · rw [_n_hadamard, hadLoop_eq, npOne_kron, naiveHadamard]
  · rw [naiveHadamard, kronPow_rows]
    rfl
  · rw [naiveHadamard, kronPow_cols]
    rfl


theorem popcount_div2 (k : ℕ) : popcount k = k % 2 + popcount (k / 2) := by
  cases k with
  | zero => simp [popcount]
  | succ n => rw [popcount]

theorem hadBase_entry (a b : ℕ) :
    hadBase.entry a b
      = if a < 2 ∧ b < 2 then (if a = 1 ∧ b = 1 then (-1 : ℝ) else 1) / Real.sqrt 2 else 0 := rfl

theorem zBase_entry (a b : ℕ) :
    zBase.entry a b
      = if a = b ∧ a < 2 then (if a = 1 then (-1 : ℝ) else 1) else 0 := rfl

theorem kronPow_succ_entry (A : NPMat) (k i j : ℕ) (h2r : A.rows = 2) (h2c : A.cols = 2) :
    (kronPow A (k + 1)).entry i j
      = (kronPow A k).entry (i / 2) (j / 2) * A.entry (i % 2) (j % 2) := by
  show (kron (kronPow A k) A).entry i j = _
  rw [kron_entry, h2r, h2c]

theorem kronPow_hadBase_diag (n : ℕ) :
    ∀ k, (kronPow hadBase n).entry k k
      = if k < 2 ^ n then (-1 : ℝ) ^ popcount k * (Real.sqrt 2)⁻¹ ^ n else 0 := by
  induction n with
  | zero =>
    intro k
    show (if k = 0 ∧ k = 0 then (1 : ℝ) else 0) = _
    by_cases hk : k < 2 ^ 0
    · have h0 : k = 0 := by
        have h1 : (2 : ℕ) ^ 0 = 1 := rfl
        omega
      subst h0
      rw [if_pos ⟨rfl, rfl⟩, if_pos hk]
      simp [popcount]
    · have h1 : ¬(k = 0 ∧ k = 0) := by
        have h2 : (2 : ℕ) ^ 0 = 1 := rfl
        omega
      rw [if_neg h1, if_neg hk]
  | succ n ih =>
    intro k
    have hmod : k % 2 < 2 := Nat.mod_lt k (by omega)
    have hb : hadBase.entry (k % 2) (k % 2) = (-1 : ℝ) ^ (k % 2) * (Real.sqrt 2)⁻¹ := by
      rw [hadBase_entry, if_pos (⟨hmod, hmod⟩ : k % 2 < 2 ∧ k % 2 < 2)]
      rcases Nat.mod_two_eq_zero_or_one k with h | h <;>
        rw [h] <;> norm_num [div_eq_mul_inv]
    rw [kronPow_succ_entry hadBase n k k rfl rfl, ih (k / 2), hb]
    by_cases hk : k < 2 ^ (n + 1)
    · have hk2 : k / 2 < 2 ^ n := by
        have h2 := pow_succ 2 n
        omega
      rw [if_pos hk2, if_pos hk, popcount_div2 k, pow_add, pow_succ]
      ring
    · have hk2 : ¬ k / 2 < 2 ^ n := by
        have h2 := pow_succ 2 n
        omega
      rw [if_neg hk2, if_neg hk]
      ring

theorem sqrt_two_inv_pow_pos (n : ℕ) : 0 < ((Real.sqrt 2)⁻¹ : ℝ) ^ n :=
  pow_pos (inv_pos.mpr (Real.sqrt_pos.mpr (by norm_num))) n

theorem npSign_diag (m n : ℕ) :
    npSign ((-1 : ℝ) ^ m * (Real.sqrt 2)⁻¹ ^ n) = (-1 : ℝ) ^ m := by
  rcases Nat.even_or_odd m with he | ho
  · rw [he.neg_one_pow, one_mul, npSign, if_pos (sqrt_two_inv_pow_pos n)]
  · rw [ho.neg_one_pow]
    have hneg : (-1 : ℝ) * (Real.sqrt 2)⁻¹ ^ n < 0 := by
      have := sqrt_two_inv_pow_pos n
      nlinarith
    rw [npSign, if_neg (by linarith), if_pos hneg]

theorem kronPow_zBase_entry (n : ℕ) :
    ∀ k l, (kronPow zBase n).entry k l
      = if k = l ∧ k < 2 ^ n then (-1 : ℝ) ^ popcount k else 0 := by
  induction n with
  | zero =>
    intro k l
    show (if k = 0 ∧ l = 0 then (1 : ℝ) else 0) = _
    by_cases h : k = 0 ∧ l = 0
    · obtain ⟨h1, h2⟩ := h
      subst h1
      subst h2
      simp [popcount]
    · rw [if_neg h]
      have h2 : ¬(k = l ∧ k < 2 ^ 0) := by
        rw [pow_zero]
        omega
      rw [if_neg h2]
  | succ n ih =>
    intro k l
    rw [kronPow_succ_entry zBase n k l rfl rfl, ih (k / 2) (l / 2), zBase_entry]
    by_cases hq : k = l
    · subst hq
      by_cases hlt : k < 2 ^ (n + 1)
      · have hk2 : k / 2 < 2 ^ n := by
          have h2 := pow_succ 2 n
          omega
        rw [if_pos (⟨rfl, hk2⟩ : k / 2 = k / 2 ∧ k / 2 < 2 ^ n),
          if_pos (⟨rfl, Nat.mod_lt k (by omega)⟩ : k % 2 = k % 2 ∧ k % 2 < 2),
          if_pos (⟨rfl, hlt⟩ : k = k ∧ k < 2 ^ (n + 1))]
        have hsplit : (if k % 2 = 1 then (-1 : ℝ) else 1) = (-1 : ℝ) ^ (k % 2) := by
          rcases Nat.mod_two_eq_zero_or_one k with h | h <;> simp [h]
        rw [hsplit, popcount_div2 k, pow_add]
        ring
      · have hk2 : ¬ k / 2 < 2 ^ n := by
          have h2 := pow_succ 2 n
          omega
        rw [if_neg (fun hc => hk2 hc.2 : ¬(k / 2 = k / 2 ∧ k / 2 < 2 ^ n)),
          if_neg (fun hc => hlt hc.2 : ¬(k = k ∧ k < 2 ^ (n + 1)))]
        ring
    · rw [if_neg (fun hc => hq hc.1 : ¬(k = l ∧ k < 2 ^ (n + 1)))]
      have hsplit : k / 2 ≠ l / 2 ∨ k % 2 ≠ l % 2 := by
        by_contra hc
        push_neg at hc
        have e1 := Nat.div_add_mod k 2
        have e2 := Nat.div_add_mod l 2
        omega
      rcases hsplit with hd | hm
      · rw [if_neg (fun hc => hd hc.1 : ¬(k / 2 = l / 2 ∧ k / 2 < 2 ^ n))]
        ring
      · rw [if_neg (fun hc => hm hc.1 : ¬(k % 2 = l % 2 ∧ k % 2 < 2))]
        ring

/-- C9: for every n ≥ 1, with `h_n = _n_hadamard(n)`, `_n_z(h_n)` equals the
n-fold Kronecker product `Z ⊗ ⋯ ⊗ Z` of the Pauli-Z matrix `diag(1, -1)`: a
diagonal `2^n` by `2^n` matrix whose k-th diagonal entry is `(-1)` raised to
the number of 1-bits of `k`. -/
theorem n_z_correct (n : ℕ) (hn : 1 ≤ n) :
    _n_z (_n_hadamard n) = naiveZ n
      ∧ (naiveZ n).rows = 2 ^ n
      ∧ (naiveZ n).cols = 2 ^ n
      ∧ (∀ k, k < 2 ^ n → (naiveZ n).entry k k = (-1 : ℝ) ^ popcount k)
      ∧ (∀ k l, k ≠ l → (naiveZ n).entry k l = 0) := by
  clear hn
  have hH : _n_hadamard n = kronPow hadBase n := by
    unfold _n_hadamard
    rw [hadLoop_eq, npOne_kron]
  have hr : (kronPow hadBase n).rows = 2 ^ n := by
    rw [kronPow_rows]
    rfl
  have hc : (kronPow hadBase n).cols = 2 ^ n := by
    rw [kronPow_cols]
    rfl
  have hzr : (naiveZ n).rows = 2 ^ n := by
    unfold naiveZ
    rw [kronPow_rows]
    rfl
  have hzc : (naiveZ n).cols = 2 ^ n := by
    unfold naiveZ
    rw [kronPow_cols]
    rfl
  have hmin : min (kronPow hadBase n).rows (kronPow hadBase n).cols = 2 ^ n := by
    rw [hr, hc, min_self]
  refine ⟨?_, hzr, hzc, ?_, ?_⟩
  · rw [hH]
    refine NPMat.ext_mat ?_ ?_ ?_
    · show min (kronPow hadBase n).rows (kronPow hadBase n).cols = (naiveZ n).rows
      rw [hmin, hzr]
    · show min (kronPow hadBase n).rows (kronPow hadBase n).cols = (naiveZ n).cols
      rw [hmin, hzc]
    · intro i j
      show (if i = j ∧ i < min (kronPow hadBase n).rows (kronPow hadBase n).cols
          then npSign ((kronPow hadBase n).entry i i) else 0) = (naiveZ n).entry i j
      rw [hmin]
      unfold naiveZ
      rw [kronPow_zBase_entry n i j]
      by_cases hij : i = j ∧ i < 2 ^ n
      · rw [if_pos hij, if_pos hij, kronPow_hadBase_diag n i, if_pos hij.2, npSign_diag]
      · rw [if_neg hij, if_neg hij]
  · intro k hk
    unfold naiveZ
    rw [kronPow_zBase_entry n k k, if_pos ⟨rfl, hk⟩]
  · intro k l hkl
    unfold naiveZ
    rw [kronPow_zBase_entry n k l, if_neg (fun hc => hkl hc.1)]

theorem n_z_correct_witness : _n_z (_n_hadamard 1) = naiveZ 1 :=
  (n_z_correct 1 (le_refl 1)).1

theorem tileBins_mem {d p b : ℕ} (h : b ∈ tileBins d p) : b < d := by
  unfold tileBins at h
  rw [List.mem_join] at h
  obtain ⟨l, hl, hb⟩ := h
  rw [List.mem_replicate] at hl
  rw [hl.2] at hb
  exact List.mem_range.mp hb

theorem count_tileBins (d p b : ℕ) : (tileBins d p).count b ≤ p := by
  induction p with
  | zero => simp [tileBins]
  | succ p ih =>
    have hsplit : tileBins d (p + 1) = List.range d ++ tileBins d p := by
      simp [tileBins, List.replicate_succ]
    rw [hsplit, List.count_append]
    have h1 : (List.range d).count b ≤ 1 :=
      List.nodup_iff_count_le_one.mp (List.nodup_range d) b
    omega

/-- C3 counterexample: `[0, 0, 1, 1]` is a legitimate outcome of shuffling
`np.tile(np.arange(2), 2)` (4 samples, 2 bins), yet within the first pass bin
0 is used twice before bin 1 is ever used: `_modified_LHC` does not guarantee
that each bin is used before any bin repeats within a pass. -/
theorem modified_LHC_pass_counterexample :
    isShuffleOf [0, 0, 1, 1] 4 2
      ∧ ¬ eachBinOncePerPass 2 (chosenBins [0, 0, 1, 1] 4) := by
  constructor
  · unfold isShuffleOf tileBins nPasses
    decide
  · intro h
    unfold eachBinOncePerPass at h
    exact absurd (h 0) (by decide)

/-- C3 (amended): `ad_hoc_data` draws its `train_size+test_size` input
vectors with `_modified_LHC` exactly when `divisions > 0` and with scrambled
Sobol sampling (`_sobol_sampling`) when `divisions = 0`; `_modified_LHC`
stratifies per dimension over `divisions` equal-width bins by shuffling
`ceil(n_samples/divisions)` copies of every bin and taking the first
`n_samples`, so each bin is used at most `ceil(n_samples/divisions)` times
(though a bin may repeat before all bins are used within a pass). -/
theorem adHoc_sampling_dispatch (n n_samples n_div divisions : ℕ)
    (shuffles : ℕ → List ℕ) (offsets u : ℕ → ℕ → ℝ) :
    (0 < divisions →
      adHocSampling divisions n n_samples shuffles offsets u
        = _modified_LHC n n_samples divisions shuffles offsets)
    ∧ adHocSampling 0 n n_samples shuffles offsets u = _sobol_sampling n n_samples u
    ∧ (∀ shuffled, isShuffleOf shuffled n_samples n_div →
        ∀ b, (chosenBins shuffled n_samples).count b ≤ nPasses n_samples n_div) := by
  refine ⟨fun h => ?_, ?_, ?_⟩
  · unfold adHocSampling
    rw [if_pos h]
  · unfold adHocSampling
    rw [if_neg (lt_irrefl 0)]
  · intro shuffled hs b
    calc (chosenBins shuffled n_samples).count b
        ≤ shuffled.count b := List.Sublist.count_le (List.take_sublist _ _) b
      _ = (tileBins n_div (nPasses n_samples n_div)).count b := hs.count_eq b
      _ ≤ nPasses n_samples n_div := count_tileBins _ _ b

/-- C8: every sampled input vector lies in the bounded parameter space: under
the random-source contracts (shuffles permute the tiled bins, uniform draws
and Sobol points lie in `[0, 1)`), every entry produced by `_modified_LHC`
lies in `[0, 2*pi)` and every entry produced by `_sobol_sampling` lies in
`[0, 2*pi)`. -/
theorem sampling_in_range (n n_samples n_div : ℕ) (shuffles : ℕ → List ℕ)
    (offsets u : ℕ → ℕ → ℝ)
    (hn : 1 ≤ n) (hns : 1 ≤ n_samples) (hdiv : 1 ≤ n_div)
    (hshuf : ∀ dim, isShuffleOf (shuffles dim) n_samples n_div)
    (hoff : ∀ dim s, 0 ≤ offsets dim s ∧ offsets dim s < 1)
    (hu : ∀ s dim, 0 ≤ u s dim ∧ u s dim < 1) :
    (∀ s dim, 0 ≤ _modified_LHC n n_samples n_div shuffles offsets s dim
        ∧ _modified_LHC n n_samples n_div shuffles offsets s dim < 2 * Real.pi)
    ∧ (∀ s dim, 0 ≤ _sobol_sampling n n_samples u s dim
        ∧ _sobol_sampling n n_samples u s dim < 2 * Real.pi) := by
  clear hn hns
  constructor
  · intro s dim
    have hbmem : (chosenBins (shuffles dim) n_samples).getD s 0 < n_div := by
      rcases Nat.lt_or_ge s (chosenBins (shuffles dim) n_samples).length with hlen | hlen
      · have hmem : (chosenBins (shuffles dim) n_samples).getD s 0
            ∈ chosenBins (shuffles dim) n_samples := by
          rw [List.getD_eq_getElem _ _ hlen]
          exact List.getElem_mem hlen
        have hmem2 : (chosenBins (shuffles dim) n_samples).getD s 0 ∈ shuffles dim :=
          List.mem_of_mem_take hmem
        have hmem3 : (chosenBins (shuffles dim) n_samples).getD s 0
            ∈ tileBins n_div (nPasses n_samples n_div) :=
          ((hshuf dim).mem_iff).mp hmem2
        exact tileBins_mem hmem3
      · rw [List.getD_eq_default _ _ hlen]
        exact hdiv
    obtain ⟨ho0, ho1⟩ := hoff dim s
    have hdpos : (0 : ℝ) < n_div := by
      exact_mod_cast Nat.lt_of_lt_of_le Nat.zero_lt_one hdiv
    have hbin : (0 : ℝ) < 2 * Real.pi / n_div := by positivity
    have hb0 : (0 : ℝ) ≤ ((chosenBins (shuffles dim) n_samples).getD s 0 : ℝ) :=
      Nat.cast_nonneg _
    unfold _modified_LHC
    constructor
    · exact mul_nonneg (by linarith) (le_of_lt hbin)
    · have hble : ((chosenBins (shuffles dim) n_samples).getD s 0 : ℝ) + 1 ≤ n_div := by
        exact_mod_cast hbmem
      have hlt : ((chosenBins (shuffles dim) n_samples).getD s 0 : ℝ) + offsets dim s
          < n_div := by linarith
      have hmul : (((chosenBins (shuffles dim) n_samples).getD s 0 : ℝ) + offsets dim s)
            * (2 * Real.pi / n_div)
          < n_div * (2 * Real.pi / n_div) :=
        mul_lt_mul_of_pos_right hlt hbin
      have hcancel : (n_div : ℝ) * (2 * Real.pi / n_div) = 2 * Real.pi := by
        field_simp
      rw [hcancel] at hmul
      exact hmul
  · intro s dim
    obtain ⟨h0, h1⟩ := hu s dim
    unfold _sobol_sampling
    constructor
    · exact mul_nonneg (by positivity) h0
    · have hmul : 2 * Real.pi * u s dim < 2 * Real.pi * 1 :=
        mul_lt_mul_of_pos_left h1 (by positivity)
      linarith

theorem sampling_in_range_witness :
    0 ≤ _modified_LHC 1 1 1 (fun _ => [0]) (fun _ _ => 0) 0 0
      ∧ _modified_LHC 1 1 1 (fun _ => [0]) (fun _ _ => 0) 0 0 < 2 * Real.pi :=
  (sampling_in_range 1 1 1 (fun _ => [0]) (fun _ _ => 0) (fun _ _ => 0)
    (le_refl 1) (le_refl 1) (le_refl 1)
    (fun _ => by
      unfold isShuffleOf
      have h : tileBins 1 (nPasses 1 1) = [0] := rfl
      rw [h])
    (fun _ _ => by norm_num)
    (fun _ _ => by norm_num)).1 0 0

theorem collectFrom_zero_need (cell : List ℕ → Int) (label : Int)
    (stream : ℕ → List ℕ) (xvals : ℕ → ℝ) (fuel start : ℕ) :
    collectFrom cell label stream xvals fuel 0 start = some ([], start) := by
  cases fuel <;> rfl

theorem collectFrom_zero_fuel (cell : List ℕ → Int) (label : Int)
    (stream : ℕ → List ℕ) (xvals : ℕ → ℝ) (need start : ℕ) :
    collectFrom cell label stream xvals 0 (need + 1) start = none := rfl

theorem collectFrom_succ (cell : List ℕ → Int) (label : Int)
    (stream : ℕ → List ℕ) (xvals : ℕ → ℝ) (fuel need start : ℕ) :
    collectFrom cell label stream xvals (fuel + 1) (need + 1) start
      = if cell (stream start) = label then
          match collectFrom cell label stream xvals fuel need (start + 1) with
          | some (rows, p) => some ((stream start).map xvals :: rows, p)
          | none => none
        else collectFrom cell label stream xvals fuel (need + 1) (start + 1) := rfl

theorem collectFrom_mono (cell : List ℕ → Int) (label : Int) (stream : ℕ → List ℕ)
    (xvals : ℕ → ℝ) :
    ∀ fuel fuel' need start r, fuel ≤ fuel' →
      collectFrom cell label stream xvals fuel need start = some r →
      collectFrom cell label stream xvals fuel' need start = some r := by
  intro fuel
  induction fuel with
  | zero =>
    intro fuel' need start r hle h
    cases need with
    | zero =>
      rw [collectFrom_zero_need] at h
      rw [collectFrom_zero_need]
      exact h
    | succ need =>
      rw [collectFrom_zero_fuel] at h
      exact absurd h (by simp)
  | succ fuel ih =>
    intro fuel' need start r hle h
    cases need with
    | zero =>
      rw [collectFrom_zero_need] at h
      rw [collectFrom_zero_need]
      exact h
    | succ need =>
      obtain ⟨f', rfl⟩ : ∃ f', fuel' = f' + 1 := ⟨fuel' - 1, by omega⟩
      rw [collectFrom_succ] at h
      rw [collectFrom_succ]
      by_cases hc : cell (stream start) = label
      · rw [if_pos hc] at h ⊢
        cases h2 : collectFrom cell label stream xvals fuel need (start + 1) with
        | none =>
          rw [h2] at h
          simp at h
        | some rp =>
          rw [h2] at h
          rw [ih f' need (start + 1) rp (by omega) h2]
          exact h
      · rw [if_neg hc] at h ⊢
        exact ih f' (need + 1) (start + 1) r (by omega) h

theorem collectFrom_spec (cell : List ℕ → Int) (label : Int) (stream : ℕ → List ℕ)
    (xvals : ℕ → ℝ) :
    ∀ fuel need start rows p,
      collectFrom cell label stream xvals fuel need start = some (rows, p) →
      rows.length = need
        ∧ ∀ row ∈ rows, ∃ t, row = (stream t).map xvals ∧ cell (stream t) = label := by
  intro fuel
  induction fuel with
  | zero =>
    intro need start rows p h
    cases need with
    | zero =>
      rw [collectFrom_zero_need] at h
      simp only [Option.some.injEq, Prod.mk.injEq] at h
      obtain ⟨hr, hp⟩ := h
      subst hr
      refine ⟨rfl, ?_⟩
      intro row hrow
      simp at hrow
    | succ need =>
      rw [collectFrom_zero_fuel] at h
      exact absurd h (by simp)
  | succ fuel ih =>
    intro need start rows p h
    cases need with
    | zero =>
      rw [collectFrom_zero_need] at h
      simp only [Option.some.injEq, Prod.mk.injEq] at h
      obtain ⟨hr, hp⟩ := h
      subst hr
      refine ⟨rfl, ?_⟩
      intro row hrow
      simp at hrow
    | succ need =>
      rw [collectFrom_succ] at h
      by_cases hc : cell (stream start) = label
      · rw [if_pos hc] at h
        cases h2 : collectFrom cell label stream xvals fuel need (start + 1) with
        | none =>
          rw [h2] at h
          simp at h
        | some rp =>
          obtain ⟨rows', p'⟩ := rp
          rw [h2] at h
          simp only [Option.some.injEq, Prod.mk.injEq] at h
          obtain ⟨hr, hp⟩ := h
          subst hr
          obtain ⟨hlen, hmem⟩ := ih need (start + 1) rows' p' h2
          refine ⟨by simp [hlen], ?_⟩
          intro row hrow
          rcases List.mem_cons.mp hrow with hh | ht
          · exact ⟨start, hh, hc⟩
          · exact hmem row ht
      · rw [if_neg hc] at h
        exact ih (need + 1) (start + 1) rows p h

theorem collectFrom_none (cell : List ℕ → Int) (label : Int) (stream : ℕ → List ℕ)
    (xvals : ℕ → ℝ) (hmiss : ∀ t, cell (stream t) ≠ label) :
    ∀ fuel need start, collectFrom cell label stream xvals fuel (need + 1) start = none := by
  intro fuel
  induction fuel with
  | zero =>
    intro need start
    rw [collectFrom_zero_fuel]
  | succ fuel ih =>
    intro need start
    rw [collectFrom_succ, if_neg (hmiss start)]
    exact ih need (start + 1)

theorem collectFrom_exists (cell : List ℕ → Int) (label : Int) (stream : ℕ → List ℕ)
    (xvals : ℕ → ℝ) (hhit : ∀ s, ∃ t, s ≤ t ∧ cell (stream t) = label) :
    ∀ need start, ∃ fuel rows p,
      collectFrom cell label stream xvals fuel need start = some (rows, p) := by
  intro need
  induction need with
  | zero =>
    intro start
    exact ⟨0, [], start, by rw [collectFrom_zero_need]⟩
  | succ need ih =>
    have aux : ∀ k start, cell (stream (start + k)) = label →
        ∃ fuel rows p,
          collectFrom cell label stream xvals fuel (need + 1) start = some (rows, p) := by
      intro k
      induction k with
      | zero =>
        intro start hc
        rw [Nat.add_zero] at hc
        obtain ⟨fuel, rows, p, hrec⟩ := ih (start + 1)
        refine ⟨fuel + 1, (stream start).map xvals :: rows, p, ?_⟩
        rw [collectFrom_succ, if_pos hc, hrec]
      | succ k ihk =>
        intro start hc
        by_cases hs : cell (stream start) = label
        · obtain ⟨fuel, rows, p, hrec⟩ := ih (start + 1)
          refine ⟨fuel + 1, (stream start).map xvals :: rows, p, ?_⟩
          rw [collectFrom_succ, if_pos hs, hrec]
        · have hc2 : cell (stream (start + 1 + k)) = label := by
            have he : start + 1 + k = start + (k + 1) := by omega
            rw [he]
            exact hc
          obtain ⟨fuel, rows, p, hrec⟩ := ihk (start + 1) hc2
          refine ⟨fuel + 1, rows, p, ?_⟩
          rw [collectFrom_succ, if_neg hs]
          exact hrec
    intro start
    obtain ⟨t, hts, hcell⟩ := hhit start
    have hc : cell (stream (start + (t - start))) = label := by
      have he : start + (t - start) = t := by omega
      rw [he]
      exact hcell
    exact aux (t - start) start hc

theorem sample_step_none (cell : List ℕ → Int) (stream : ℕ → List ℕ) (xvals : ℕ → ℝ)
    (num fuel : ℕ) (h : collectFrom cell 1 stream xvals fuel num 0 = none) :
    _sample_ad_hoc_data cell stream xvals num fuel = none := by
  unfold _sample_ad_hoc_data
  rw [h]

theorem sample_step_some (cell : List ℕ → Int) (stream : ℕ → List ℕ) (xvals : ℕ → ℝ)
    (num fuel : ℕ) (a : List (List ℝ)) (p : ℕ)
    (h : collectFrom cell 1 stream xvals fuel num 0 = some (a, p)) :
    _sample_ad_hoc_data cell stream xvals num fuel
      = match collectFrom cell (-1) stream xvals fuel num p with
        | none => none
        | some (b, _) => some (a ++ b, List.replicate num 0 ++ List.replicate num 1) := by
  unfold _sample_ad_hoc_data
  rw [h]

/-- C10: the rejection-sampling loop in `_sample_ad_hoc_data` terminates
precisely when the draw stream keeps hitting grid cells labelled `+1` and
cells labelled `-1`: it then returns exactly `2*num_samples` feature rows
together with the label array `[0]*num_samples ++ [1]*num_samples`, every
returned row being built from the grid coordinate values `xvals` at drawn
indices; if one of the two labels never occurs among the drawn cells (in
particular when it is absent from the grid), the loop never terminates
(`none` for every fuel bound). -/
theorem sample_ad_hoc_data_termination (cell : List ℕ → Int) (stream : ℕ → List ℕ)
    (xvals : ℕ → ℝ) (num_samples : ℕ) (hnum : 1 ≤ num_samples) :
    ((∀ s, ∃ t, s ≤ t ∧ cell (stream t) = 1) →
      (∀ s, ∃ t, s ≤ t ∧ cell (stream t) = -1) →
      ∃ fuel rows,
        _sample_ad_hoc_data cell stream xvals num_samples fuel
          = some (rows, List.replicate num_samples 0 ++ List.replicate num_samples 1)
        ∧ rows.length = 2 * num_samples
        ∧ ∀ row ∈ rows, ∃ t, row = (stream t).map xvals ∧ cell (stream t) ≠ 0)
    ∧ ((∀ t, cell (stream t) ≠ 1) →
        ∀ fuel, _sample_ad_hoc_data cell stream xvals num_samples fuel = none)
    ∧ ((∀ t, cell (stream t) ≠ -1) →
        ∀ fuel, _sample_ad_hoc_data cell stream xvals num_samples fuel = none) := by
  obtain ⟨m, rfl⟩ : ∃ m, num_samples = m + 1 := ⟨num_samples - 1, by omega⟩
  refine ⟨?_, ?_, ?_⟩
  · intro h1 h2
    obtain ⟨fa, a, p, ha⟩ := collectFrom_exists cell 1 stream xvals h1 (m + 1) 0
    obtain ⟨fb, b, q, hb⟩ := collectFrom_exists cell (-1) stream xvals h2 (m + 1) p
    have ha2 := collectFrom_mono cell 1 stream xvals fa (max fa fb) (m + 1) 0 (a, p)
      (le_max_left fa fb) ha
    have hb2 := collectFrom_mono cell (-1) stream xvals fb (max fa fb) (m + 1) p (b, q)
      (le_max_right fa fb) hb
    obtain ⟨hal, ham⟩ := collectFrom_spec cell 1 stream xvals fa (m + 1) 0 a p ha
    obtain ⟨hbl, hbm⟩ := collectFrom_spec cell (-1) stream xvals fb (m + 1) p b q hb
    refine ⟨max fa fb, a ++ b, ?_, ?_, ?_⟩
    · rw [sample_step_some cell stream xvals (m + 1) (max fa fb) a p ha2, hb2]
    · rw [List.length_append, hal, hbl]
      omega
    · intro row hrow
      rcases List.mem_append.mp hrow with hma | hmb
      · obtain ⟨t, hrt, hct⟩ := ham row hma
        exact ⟨t, hrt, by rw [hct]; decide⟩
      · obtain ⟨t, hrt, hct⟩ := hbm row hmb
        exact ⟨t, hrt, by rw [hct]; decide⟩
  · intro hmiss fuel
    exact sample_step_none cell stream xvals (m + 1) fuel
      (collectFrom_none cell 1 stream xvals hmiss fuel m 0)
  · intro hmiss fuel
    cases hfirst : collectFrom cell 1 stream xvals fuel (m + 1) 0 with
    | none => exact sample_step_none cell stream xvals (m + 1) fuel hfirst
    | some ap =>
      obtain ⟨a, p⟩ := ap
      rw [sample_step_some cell stream xvals (m + 1) fuel a p hfirst,
        collectFrom_none cell (-1) stream xvals hmiss fuel m p]

theorem sample_ad_hoc_data_termination_witness :
    ∃ fuel rows,
      _sample_ad_hoc_data wCell wStream wX 1 fuel
        = some (rows, List.replicate 1 0 ++ List.replicate 1 1)
      ∧ rows.length = 2 * 1
      ∧ ∀ row ∈ rows, ∃ t, row = (wStream t).map wX ∧ wCell (wStream t) ≠ 0 :=
  (sample_ad_hoc_data_termination wCell wStream wX 1 (le_refl 1)).1
    (fun s => ⟨2 * s, by omega, by
      have h : (2 * s) % 2 = 0 := by omega
      simp [wCell, wStream, h]⟩)
    (fun s => ⟨2 * s + 1, by omega, by
      have h : (2 * s + 1) % 2 = 1 := by omega
      simp [wCell, wStream, h]⟩)

/-- C6 (the sound algebra, and the batch-size slip): `pre_exp` is real by
construction, so every entry of `exp(1j * pre_exp)` has modulus 1; but
`Uphi` is allocated with a hard-coded batch of 10 matrices, so already for
`n_samples = 20` — the module's own call `ad_hoc_data(10, 10, 3, 10, 0)` —
the assignment `Uphi[:, cols, cols] = post_exp[:, cols]` is not
broadcast-compatible and no per-sample diagonal unitary is ever built. -/
theorem uphi_diag_modulus (n : ℕ) (x : ℕ → ℕ → ℝ) :
    (∀ s c, Complex.abs (postExp n x s c) = 1)
      ∧ uphiBatchSize = 10
      ∧ numpyAssignCompatible uphiBatchSize 20 = false := by
  refine ⟨?_, rfl, by decide⟩
  intro s c
  unfold postExp
  rw [mul_comm, Complex.abs_exp_ofReal_mul_I]

/-- C1 (code-bug evidence): the body of `ad_hoc_data` references the global
name `n_hadamard`, which the module neither defines (the helper is named
`_n_hadamard`) nor imports, so every call raises `NameError` before any
training/testing split can be computed or returned. -/
theorem ad_hoc_data_undefined_hadamard :
    "n_hadamard" ∈ adHocDataFreeNames
      ∧ "n_hadamard" ∉ moduleTopLevelDefs
      ∧ "n_hadamard" ∉ moduleImportedNames := by
  refine ⟨?_, ?_, ?_⟩ <;> decide

/-- C2 (code-bug evidence): the labelling block of `ad_hoc_data` appends to
`_sample_total` (and reads `count`), names the module never defines nor
imports, so the thresholding loop cannot run. -/
theorem ad_hoc_data_undefined_sample_total :
    "_sample_total" ∈ adHocDataFreeNames
      ∧ "_sample_total" ∉ moduleTopLevelDefs
      ∧ "_sample_total" ∉ moduleImportedNames := by
  refine ⟨?_, ?_, ?_⟩ <;> decide

/-- C5 (code-bug evidence): the docstring documents `ValueError: if n is not
2 or 3`, but the module contains no raise statement at all, so no
`ValueError` is ever raised; and the body references the undefined global
`combinations` (itertools was imported as `it`), so the function does not
return normally for n in {2, 3} either. -/
theorem ad_hoc_data_no_value_error :
    "ValueError" ∈ adHocDataDocumentedRaises
      ∧ adHocModuleRaiseStatements = []
      ∧ "combinations" ∈ adHocDataFreeNames
      ∧ "combinations" ∉ moduleTopLevelDefs
      ∧ "combinations" ∉ moduleImportedNames := by
  refine ⟨?_, rfl, ?_, ?_, ?_⟩ <;> decide

/-- C4: saving a fitted QSVR model and loading the file back through
`QSVR.load` yields a model whose `predict` on the same test features equals
the original model's predictions; loading the same file through a different
`SerializableModelMixin` subclass raises `TypeError`. -/
theorem qsvr_save_load_roundtrip (m : QSVRModel) (xrow : List ℝ) (k : ModelClass)
    (hk : k ≠ ModelClass.qsvr) :
    loadModel ModelClass.qsvr (saveModel m) = Except.ok m
      ∧ (∀ m2, loadModel ModelClass.qsvr (saveModel m) = Except.ok m2 →
          predictModel m2 xrow = predictModel m xrow)
      ∧ loadModel k (saveModel m) = Except.error "TypeError" := by
  refine ⟨?_, ?_, ?_⟩
  · unfold loadModel saveModel
    rw [if_pos rfl]
  · intro m2 h
    unfold loadModel saveModel at h
    rw [if_pos rfl] at h
    simp only [Except.ok.injEq] at h
    rw [h]
  · unfold loadModel saveModel
    rw [if_neg (fun he => hk he.symm)]

theorem qsvr_save_load_roundtrip_witness :
    loadModel ModelClass.qsvr (saveModel ⟨fun _ => 0⟩) = Except.ok ⟨fun _ => 0⟩
      ∧ (∀ m2, loadModel ModelClass.qsvr (saveModel ⟨fun _ => 0⟩) = Except.ok m2 →
          predictModel m2 [] = predictModel ⟨fun _ => 0⟩ [])
      ∧ loadModel ModelClass.fakeModel (saveModel ⟨fun _ => 0⟩)
          = Except.error "TypeError" :=
  qsvr_save_load_roundtrip ⟨fun _ => 0⟩ [] ModelClass.fakeModel (by decide)
